import Mathlib

/-!
Bedrock debug screen: a verification development of `scripts/main.js`.

JavaScript strings are sequences of UTF-16 code units, so a string is embedded
as a list of natural numbers, each below `65536` (`IsString`). The string
iterator (`for (const ch of s)`) walks code points, `String.fromCodePoint`
raises a `RangeError` outside `0 .. 0x10FFFF` (embedded as `none`), and
`String.prototype.includes` compares code units.
-/

namespace DebugScreen

/-! ## Strings -/

/-- A JavaScript string value, as its sequence of UTF-16 code units. -/
abbrev JSString := List Nat

/-- Every element is a 16-bit code unit. -/
def IsString (s : JSString) : Prop := ∀ u ∈ s, u < 65536

instance (s : JSString) : Decidable (IsString s) := by
  unfold IsString; infer_instance

/-- A string literal of the source made of characters below U+10000, as its
code units. -/
def lit (s : String) : JSString :=
  s.toList.map Char.toNat

def isHighSurrogate (u : Nat) : Bool := 0xD800 ≤ u && u ≤ 0xDBFF

def isLowSurrogate (u : Nat) : Bool := 0xDC00 ≤ u && u ≤ 0xDFFF

/-- The code points visited by the string iterator `for (const ch of s)`,
each as `ch.codePointAt(0)`: a high surrogate directly followed by a low
surrogate is one code point, any other code unit stands for itself. -/
def codePoints : JSString → List Nat
  | [] => []
  | [u] => [u]
  | u :: v :: rest =>
    if isHighSurrogate u && isLowSurrogate v then
      ((u - 0xD800) * 0x400 + (v - 0xDC00) + 0x10000) :: codePoints rest
    else
      u :: codePoints (v :: rest)

/-- UTF-16 encoding of a code point in `0 .. 0x10FFFF`. -/
def utf16 (c : Nat) : JSString :=
  if c ≤ 0xFFFF then [c]
  else [(c - 0x10000) / 0x400 + 0xD800, (c - 0x10000) % 0x400 + 0xDC00]

/-- `String.fromCodePoint(n)` for an integer `n`: a `RangeError` (`none`)
outside `0 .. 0x10FFFF`. -/
def fromCodePoint (n : Int) : Option JSString :=
  if n < 0 ∨ 0x10FFFF < n then none else some (utf16 n.toNat)

/-- `s.includes(t)`: `t` occurs in `s` as a contiguous run of code units. -/
def includes (s t : JSString) : Bool :=
  s.tails.any (fun u => t.isPrefixOf u)

/-- `String(x ?? '')` for a value that is a string, `null` or `undefined`. -/
def stringOr (x : Option JSString) : JSString :=
  match x with
  | some s => s
  | none => []

/-! ## Codec -/

def BRAILLE_OFFSET : Int := 10240

/-- The loop body of `offsetString`, over the code points of the input. -/
def offsetLoop (delta : Int) : List Nat → Option JSString
  | [] => some []
  | cp :: rest =>
    if cp = 0x20 then
      (offsetLoop delta rest).map (fun out => 0x20 :: out)
    else
      (fromCodePoint ((cp : Int) + delta)).bind fun ch =>
        (offsetLoop delta rest).map fun out => ch ++ out

/-- `offsetString(input, delta)`. -/
def offsetString (input : Option JSString) (delta : Int) : Option JSString :=
  offsetLoop delta (codePoints (stringOr input))

/-- `messageContainsCommand(message, command)`; `nfkc` is the host's
`String.prototype.normalize('NFKC')`. The second operand of `||` is evaluated
only when the first is false. -/
def messageContainsCommand (nfkc : JSString → JSString)
    (message : Option JSString) (command : JSString) : Option Bool :=
  let msg := nfkc (stringOr message)
  (offsetString (some command) 0).bind fun plain =>
    if includes msg plain then some true
    else (offsetString (some command) BRAILLE_OFFSET).map fun enc => includes msg enc

/-! ## Overlay arithmetic

The overlay computes on JavaScript numbers. The inputs considered here are
integers of small magnitude, and the arithmetic is embedded over the rationals.
-/

/-- `n.toString().padStart(2, '0')` for an integer-valued number `n`. -/
def padStart2 (n : Int) : String :=
  let s := toString n
  String.mk (List.replicate (2 - s.length) '0') ++ s

/-- `translateTimeOfDay(time)` for an integer `time` (so `parseInt(time, 10)`
is `time` itself and is never `NaN`); `none` is `undefined`. -/
def translateTimeOfDay (time : Int) : Option String :=
  let safeTime := time
  if safeTime = 0 ∨ safeTime > 24000 ∨ safeTime < 0 then none
  else
    let minecraftTime : ℚ := 6 + ((safeTime : ℚ) / 24000) * 24
    let minecraftTime := if minecraftTime > 24 then minecraftTime - 24 else minecraftTime
    let hour : Int := Int.floor minecraftTime
    let minute : Int := Int.floor ((minecraftTime - hour) * 60)
    some (padStart2 hour ++ ":" ++ padStart2 minute)

/-- One axis of `playerChunk`: `Math.floor(playerBlock.x / 16)`. -/
def playerChunk (block : Int) : Int := Int.floor ((block : ℚ) / 16)

/-- One axis of `playerChunkPosition`: `playerBlock.x % 16`, the JavaScript
remainder, which truncates toward zero and takes the sign of the dividend. -/
def playerChunkPosition (block : Int) : Int := Int.tmod block 16

/-! ## Sessions -/

/-- The fields of a host `Player` that the script reads; `none` is
`null`/`undefined`. -/
structure Player where
  id : Option JSString
  name : Option JSString
  deriving DecidableEq, Repr

/-- `playerKey(player)`: `String(player?.id ?? player?.name ?? '')`. -/
def playerKey (player : Player) : JSString :=
  match player.id with
  | some i => i
  | none => stringOr player.name

/-- Calls made to the host, in program order. `runInterval` records the
handle the host returned; `setActionBar` is the callback handed to
`system.run`. -/
inductive Effect where
  | runInterval (player : Player) (handle : Nat)
  | clearRun (handle : Nat)
  | setActionBar (player : Player) (text : String)
  deriving DecidableEq, Repr

/-- The script's state: the `activeDebugIntervals` map (entries in insertion
order) together with the history of host calls. -/
structure World where
  activeDebugIntervals : List (JSString × Nat)
  effects : List Effect
  deriving DecidableEq, Repr

/-- State right after the script is loaded. -/
def World.initial : World := ⟨[], []⟩

/-- `Map.prototype.get`. -/
def mapGet (m : List (JSString × Nat)) (key : JSString) : Option Nat :=
  match m with
  | [] => none
  | (k, v) :: rest => if k = key then some v else mapGet rest key

/-- `Map.prototype.has`. -/
def mapHas (m : List (JSString × Nat)) (key : JSString) : Bool :=
  (mapGet m key).isSome

/-- `Map.prototype.set`: overwrite in place, or append a new entry. -/
def mapSet (m : List (JSString × Nat)) (key : JSString) (value : Nat) :
    List (JSString × Nat) :=
  match m with
  | [] => [(key, value)]
  | (k, v) :: rest =>
    if k = key then (k, value) :: rest else (k, v) :: mapSet rest key value

/-- `Map.prototype.delete`. -/
def mapDelete (m : List (JSString × Nat)) (key : JSString) : List (JSString × Nat) :=
  m.filter (fun e => e.1 ≠ key)

/-- `enableDebugForPlayer(player)`; `hostHandle` is what `system.runInterval`
returns if `showDebugInfo` is called. -/
def enableDebugForPlayer (w : World) (player : Player) (hostHandle : Nat) : World :=
  let key := playerKey player
  if key = [] then w
  else if mapHas w.activeDebugIntervals key then
    { w with effects := w.effects ++ [Effect.setActionBar player "Debug already enabled"] }
  else
    let handle := hostHandle
    { activeDebugIntervals := mapSet w.activeDebugIntervals key handle
      effects := w.effects ++
        [Effect.runInterval player handle, Effect.setActionBar player "Debug Menu Opened"] }

/-- `disableDebugForPlayer(player)`. -/
def disableDebugForPlayer (w : World) (player : Player) : World :=
  let key := playerKey player
  if key = [] then w
  else
    let w1 : World :=
      match mapGet w.activeDebugIntervals key with
      | some handle =>
        { activeDebugIntervals := mapDelete w.activeDebugIntervals key
          effects := w.effects ++ [Effect.clearRun handle] }
      | none => w
    { w1 with effects := w1.effects ++ [Effect.setActionBar player "Debug Menu Closed"] }

/-- The `playerLeave` event data read by the script. -/
structure PlayerLeaveEvent where
  playerId : Option JSString
  deriving DecidableEq, Repr

/-- The `world.afterEvents.playerLeave` subscriber. -/
def playerLeave (w : World) (ev : PlayerLeaveEvent) : World :=
  let key := stringOr ev.playerId
  match mapGet w.activeDebugIntervals key with
  | some handle =>
    { activeDebugIntervals := mapDelete w.activeDebugIntervals key
      effects := w.effects ++ [Effect.clearRun handle] }
  | none => w

/-- The leave event the host fires for a player: it carries that player's id. -/
def leaveEventOf (player : Player) : PlayerLeaveEvent := ⟨player.id⟩

/-- The `chatSend` event data read by the script. -/
structure ChatSendEvent where
  sender : Player
  message : Option JSString
  deriving DecidableEq, Repr

/-- The `chatSend` subscriber. The result is the new state and the final value
of `eventData.cancel`; `none` is an exception leaving the handler. -/
def chatSend (nfkc : JSString → JSString) (w : World) (eventData : ChatSendEvent)
    (hostHandle : Nat) : Option (World × Bool) :=
  let player := eventData.sender
  (messageContainsCommand nfkc eventData.message (lit "?debug on")).bind fun isOn =>
    if isOn then some (enableDebugForPlayer w player hostHandle, true)
    else
      (messageContainsCommand nfkc eventData.message (lit "?debug off")).bind fun isOff =>
        if isOff then some (disableDebugForPlayer w player, true)
        else some (w, false)

/-! ## Host scheduler, as seen through the call history -/

/-- Number of `system.clearRun` calls in a history. -/
def clearRunCount (es : List Effect) : Nat :=
  es.countP (fun e => match e with | Effect.clearRun _ => true | _ => false)

/-- Number of `system.runInterval` calls in a history. -/
def runIntervalCount (es : List Effect) : Nat :=
  es.countP (fun e => match e with | Effect.runInterval _ _ => true | _ => false)

/-- Effect of one host call on the scheduler's running interval tasks, each
kept as its handle and the identity of the player it renders for. -/
def schedulerStep (tasks : List (Nat × JSString)) (e : Effect) : List (Nat × JSString) :=
  match e with
  | Effect.runInterval player handle => tasks ++ [(handle, playerKey player)]
  | Effect.clearRun handle => tasks.filter (fun t => t.1 ≠ handle)
  | Effect.setActionBar _ _ => tasks

/-- Interval tasks started and not yet cancelled after a history of calls. -/
def liveTasks (es : List Effect) : List (Nat × JSString) :=
  es.foldl schedulerStep []

/-- Events delivered to the script. `enable` and `chat` carry the handle the
host scheduler hands out if the handler starts an interval. -/
inductive Event where
  | enable (player : Player) (hostHandle : Nat)
  | disable (player : Player)
  | leave (ev : PlayerLeaveEvent)
  | chat (eventData : ChatSendEvent) (hostHandle : Nat)
  deriving DecidableEq, Repr

/-- The handle an event offers to the script, if any. -/
def Event.offered : Event → Option Nat
  | Event.enable _ h => some h
  | Event.chat _ h => some h
  | _ => none

/-- One event handled by the script; an exception in the chat handler
leaves the state untouched. -/
def handleEvent (nfkc : JSString → JSString) (w : World) : Event → World
  | Event.enable p h => enableDebugForPlayer w p h
  | Event.disable p => disableDebugForPlayer w p
  | Event.leave ev => playerLeave w ev
  | Event.chat ev h =>
    match chatSend nfkc w ev h with
    | some r => r.1
    | none => w

/-- The host never hands out the handle of a task that is still running. -/
def FreshHandle (w : World) (e : Event) : Prop :=
  ∀ h, e.offered = some h → ∀ t ∈ liveTasks w.effects, t.1 ≠ h

/-- States the script can be in: from the initial state, through any events,
with the host handing out fresh handles. -/
inductive Reachable (nfkc : JSString → JSString) : World → Prop where
  | initial : Reachable nfkc World.initial
  | step (w : World) (e : Event) :
      Reachable nfkc w → FreshHandle w e → Reachable nfkc (handleEvent nfkc w e)

/-- What is assumed of the host's NFKC normalization: a string made only of
ASCII and Braille-pattern code units is already normalized. -/
def NFKCFixesAsciiBraille (nfkc : JSString → JSString) : Prop :=
  ∀ s : JSString, (∀ u ∈ s, u < 0x80 ∨ (0x2800 ≤ u ∧ u ≤ 0x28FF)) → nfkc s = s

/-- A player with an id, used in examples. -/
def alex : Player := ⟨some (lit "-4294967295"), some (lit "Alex")⟩

/-- A player object without an id, as on a host that predates `Player.id`. -/
def steve : Player := ⟨none, some (lit "Steve")⟩

/-- The running tasks are exactly the map's entries, and neither a key nor a
handle occurs twice. -/
def SessionInv (w : World) : Prop :=
  liveTasks w.effects = w.activeDebugIntervals.map Prod.swap ∧
  (w.activeDebugIntervals.map Prod.fst).Nodup ∧
  (w.activeDebugIntervals.map Prod.snd).Nodup

/-! ## Codec vocabulary -/

/-- A Unicode scalar value: a code point that is not a surrogate. -/
def IsScalarValue (n : Int) : Prop :=
  0 ≤ n ∧ n ≤ 0x10FFFF ∧ ¬ (0xD800 ≤ n ∧ n ≤ 0xDFFF)

instance (n : Int) : Decidable (IsScalarValue n) := by
  unfold IsScalarValue; infer_instance

/-- Encoding by `offsetString` followed by the inverse offset. -/
def roundTrip (s : JSString) (d : Int) : Option JSString :=
  (offsetString (some s) d).bind fun e => offsetString (some e) (-d)

/-- Concatenated UTF-16 encodings of a list of code points. -/
def unitsOf : List Nat → JSString
  | [] => []
  | c :: rest => utf16 c ++ unitsOf rest

/-- What `offsetString` does to one code point, when the result is in range. -/
def shiftCp (d : Int) (c : Nat) : Nat :=
  if c = 0x20 then 0x20 else ((c : Int) + d).toNat

/-! ## Map lemmas -/

theorem mapGet_eq_none_iff (m : List (JSString × Nat)) (key : JSString) :
    mapGet m key = none ↔ ∀ e ∈ m, e.1 ≠ key := by
  induction m with
  | nil => simp [mapGet]
  | cons e rest ih =>
    obtain ⟨k, v⟩ := e
    by_cases hk : k = key
    · simp [mapGet, hk]
    · simp [mapGet, hk, ih]

theorem mapDelete_of_absent (m : List (JSString × Nat)) (key : JSString)
    (h : mapGet m key = none) : mapDelete m key = m := by
  rw [mapGet_eq_none_iff] at h
  unfold mapDelete
  rw [List.filter_eq_self]
  intro e he
  simpa using h e he

theorem mapSet_of_absent (m : List (JSString × Nat)) (key : JSString) (v : Nat)
    (h : mapGet m key = none) : mapSet m key v = m ++ [(key, v)] := by
  induction m with
  | nil => simp [mapSet]
  | cons e rest ih =>
    obtain ⟨k, v0⟩ := e
    by_cases hk : k = key
    · simp [mapGet, hk] at h
    · simp [mapGet, hk] at h
      simp [mapSet, hk, ih h]

theorem mapGet_append_absent (m : List (JSString × Nat)) (key : JSString) (v : Nat)
    (h : mapGet m key = none) : mapGet (m ++ [(key, v)]) key = some v := by
  induction m with
  | nil => simp [mapGet]
  | cons e rest ih =>
    obtain ⟨k, v0⟩ := e
    by_cases hk : k = key
    · simp [mapGet, hk] at h
    · simp [mapGet, hk] at h
      simp [mapGet, hk, ih h]

theorem mapDelete_append_absent (m : List (JSString × Nat)) (key : JSString) (v : Nat)
    (h : mapGet m key = none) : mapDelete (m ++ [(key, v)]) key = m := by
  have h1 := mapDelete_of_absent m key h
  unfold mapDelete at h1 ⊢
  rw [List.filter_append, h1]
  simp

theorem mapGet_mapDelete_self (m : List (JSString × Nat)) (key : JSString) :
    mapGet (mapDelete m key) key = none := by
  rw [mapGet_eq_none_iff]
  intro e he
  unfold mapDelete at he
  simpa using (List.mem_filter.mp he).2

/-! ## Session commands -/

theorem enable_started (w : World) (p : Player) (h : Nat) (hk : playerKey p ≠ [])
    (hno : mapGet w.activeDebugIntervals (playerKey p) = none) :
    enableDebugForPlayer w p h =
      { activeDebugIntervals := w.activeDebugIntervals ++ [(playerKey p, h)]
        effects := w.effects ++
          [Effect.runInterval p h, Effect.setActionBar p "Debug Menu Opened"] } := by
  simp [enableDebugForPlayer, hk, mapHas, hno, mapSet_of_absent]

theorem enable_already (w : World) (p : Player) (h h0 : Nat) (hk : playerKey p ≠ [])
    (hreg : mapGet w.activeDebugIntervals (playerKey p) = some h0) :
    enableDebugForPlayer w p h =
      { w with effects := w.effects ++ [Effect.setActionBar p "Debug already enabled"] } := by
  simp [enableDebugForPlayer, hk, mapHas, hreg]

theorem disable_stopped (w : World) (p : Player) (h0 : Nat) (hk : playerKey p ≠ [])
    (hreg : mapGet w.activeDebugIntervals (playerKey p) = some h0) :
    disableDebugForPlayer w p =
      { activeDebugIntervals := mapDelete w.activeDebugIntervals (playerKey p)
        effects := w.effects ++
          [Effect.clearRun h0, Effect.setActionBar p "Debug Menu Closed"] } := by
  simp [disableDebugForPlayer, hk, hreg]

theorem disable_not_active (w : World) (p : Player) (hk : playerKey p ≠ [])
    (hno : mapGet w.activeDebugIntervals (playerKey p) = none) :
    disableDebugForPlayer w p =
      { w with effects := w.effects ++ [Effect.setActionBar p "Debug Menu Closed"] } := by
  simp [disableDebugForPlayer, hk, hno]

theorem clearRunCount_append (a b : List Effect) :
    clearRunCount (a ++ b) = clearRunCount a + clearRunCount b := by
  simp [clearRunCount, List.countP_append]

theorem runIntervalCount_append (a b : List Effect) :
    runIntervalCount (a ++ b) = runIntervalCount a + runIntervalCount b := by
  simp [runIntervalCount, List.countP_append]

/-- C3: enabling a player whose key already has an entry starts no interval
(no `system.runInterval` call), leaves the map as it was, the key still mapped
to the handle of the first enable, and only schedules the
'Debug already enabled' feedback. -/
theorem enable_again_starts_nothing (w : World) (p : Player) (h h0 : Nat)
    (hk : playerKey p ≠ [])
    (hreg : mapGet w.activeDebugIntervals (playerKey p) = some h0) :
    (enableDebugForPlayer w p h).activeDebugIntervals = w.activeDebugIntervals ∧
    mapGet (enableDebugForPlayer w p h).activeDebugIntervals (playerKey p) = some h0 ∧
    (enableDebugForPlayer w p h).effects =
      w.effects ++ [Effect.setActionBar p "Debug already enabled"] ∧
    runIntervalCount (enableDebugForPlayer w p h).effects = runIntervalCount w.effects := by
  rw [enable_already w p h h0 hk hreg]
  refine ⟨rfl, hreg, rfl, ?_⟩
  simp [runIntervalCount_append, runIntervalCount]

theorem enable_again_starts_nothing_witness :
    (enableDebugForPlayer (enableDebugForPlayer World.initial alex 7) alex 8).activeDebugIntervals
        = [(lit "-4294967295", 7)] ∧
    runIntervalCount (enableDebugForPlayer (enableDebugForPlayer World.initial alex 7) alex 8).effects
        = 1 := by
  have h := enable_again_starts_nothing (enableDebugForPlayer World.initial alex 7) alex 8 7
    (by decide) (by decide)
  exact ⟨h.1.trans (by decide), h.2.2.2.trans (by decide)⟩

/-- C4: for a player with a non-empty key and no session, enable followed by
disable calls `system.clearRun` exactly once, with the handle obtained by the
enable step, and leaves the map exactly as before the enable, without the
player's key. -/
theorem enable_then_disable (w : World) (p : Player) (h : Nat)
    (hk : playerKey p ≠ [])
    (hno : mapGet w.activeDebugIntervals (playerKey p) = none) :
    (disableDebugForPlayer (enableDebugForPlayer w p h) p).effects =
      w.effects ++ [Effect.runInterval p h, Effect.setActionBar p "Debug Menu Opened",
        Effect.clearRun h, Effect.setActionBar p "Debug Menu Closed"] ∧
    clearRunCount (disableDebugForPlayer (enableDebugForPlayer w p h) p).effects =
      clearRunCount w.effects + 1 ∧
    mapGet (disableDebugForPlayer (enableDebugForPlayer w p h) p).activeDebugIntervals
      (playerKey p) = none ∧
    (disableDebugForPlayer (enableDebugForPlayer w p h) p).activeDebugIntervals =
      w.activeDebugIntervals := by
  rw [enable_started w p h hk hno]
  rw [disable_stopped _ p h hk (mapGet_append_absent _ _ _ hno)]
  simp only [mapDelete_append_absent _ _ _ hno]
  refine ⟨by simp, ?_, hno, trivial⟩
  simp [clearRunCount_append, clearRunCount]

theorem enable_then_disable_witness :
    (disableDebugForPlayer (enableDebugForPlayer World.initial alex 7) alex).effects =
      [Effect.runInterval alex 7, Effect.setActionBar alex "Debug Menu Opened",
        Effect.clearRun 7, Effect.setActionBar alex "Debug Menu Closed"] ∧
    (disableDebugForPlayer (enableDebugForPlayer World.initial alex 7) alex).activeDebugIntervals
      = [] := by
  have h := enable_then_disable World.initial alex 7 (by decide) (by decide)
  exact ⟨h.1, h.2.2.2⟩

/-- C8: for a player with a non-empty key and no session, disable makes no
`system.clearRun` call and leaves the map unchanged, still scheduling the
'Debug Menu Closed' feedback; and a chat message carrying the disable command
(and not the enable command) is cancelled with exactly that outcome. -/
theorem disable_without_session (nfkc : JSString → JSString) (w : World) (p : Player)
    (hk : playerKey p ≠ [])
    (hno : mapGet w.activeDebugIntervals (playerKey p) = none) :
    disableDebugForPlayer w p =
      { activeDebugIntervals := w.activeDebugIntervals
        effects := w.effects ++ [Effect.setActionBar p "Debug Menu Closed"] } ∧
    clearRunCount (disableDebugForPlayer w p).effects = clearRunCount w.effects ∧
    ∀ (message : Option JSString) (hostHandle : Nat),
      messageContainsCommand nfkc message (lit "?debug on") = some false →
      messageContainsCommand nfkc message (lit "?debug off") = some true →
      chatSend nfkc w ⟨p, message⟩ hostHandle =
        some ({ activeDebugIntervals := w.activeDebugIntervals
                effects := w.effects ++ [Effect.setActionBar p "Debug Menu Closed"] }, true) := by
  have hd := disable_not_active w p hk hno
  refine ⟨hd, ?_, ?_⟩
  · rw [hd]; simp [clearRunCount_append, clearRunCount]
  · intro message hostHandle hon hoff
    simp [chatSend, hon, hoff, hd]

theorem disable_without_session_witness :
    disableDebugForPlayer World.initial alex =
      ⟨[], [Effect.setActionBar alex "Debug Menu Closed"]⟩ ∧
    chatSend id World.initial ⟨alex, some (lit "?debug off")⟩ 7 =
      some (⟨[], [Effect.setActionBar alex "Debug Menu Closed"]⟩, true) := by
  have h := disable_without_session id World.initial alex (by decide) (by decide)
  exact ⟨h.1, h.2.2 (some (lit "?debug off")) 7 (by decide) (by decide)⟩

/-- C7: a chat event whose message matches neither "?debug on" nor
"?debug off" leaves `eventData.cancel` unset and the whole state (map and
host-call history) unchanged; so does the message "hello world". -/
theorem chat_without_command (nfkc : JSString → JSString)
    (hn : NFKCFixesAsciiBraille nfkc) :
    (∀ (w : World) (eventData : ChatSendEvent) (hostHandle : Nat),
      messageContainsCommand nfkc eventData.message (lit "?debug on") = some false →
      messageContainsCommand nfkc eventData.message (lit "?debug off") = some false →
      chatSend nfkc w eventData hostHandle = some (w, false)) ∧
    (∀ (w : World) (sender : Player) (hostHandle : Nat),
      chatSend nfkc w ⟨sender, some (lit "hello world")⟩ hostHandle = some (w, false)) := by
  have hgen : ∀ (w : World) (eventData : ChatSendEvent) (hostHandle : Nat),
      messageContainsCommand nfkc eventData.message (lit "?debug on") = some false →
      messageContainsCommand nfkc eventData.message (lit "?debug off") = some false →
      chatSend nfkc w eventData hostHandle = some (w, false) := by
    intro w eventData hostHandle hon hoff
    simp [chatSend, hon, hoff]
  refine ⟨hgen, ?_⟩
  intro w sender hostHandle
  have hfix : nfkc (lit "hello world") = lit "hello world" := hn _ (by decide)
  apply hgen
  · simp only [messageContainsCommand, stringOr, hfix]; decide
  · simp only [messageContainsCommand, stringOr, hfix]; decide

theorem chat_without_command_witness :
    NFKCFixesAsciiBraille id ∧
    chatSend id World.initial ⟨alex, some (lit "hello world")⟩ 7 =
      some (World.initial, false) :=
  ⟨fun _ _ => rfl, (chat_without_command id (fun _ _ => rfl)).2 World.initial alex 7⟩

/-- C6: a session stored under the name of a player object that has no id is
not found by the leave handler, which looks only under `ev.playerId`: the
entry stays and `system.clearRun` is not called. -/
theorem leave_misses_name_keyed_session :
    playerKey steve = lit "Steve" ∧
    mapGet (enableDebugForPlayer World.initial steve 7).activeDebugIntervals (playerKey steve)
      = some 7 ∧
    playerLeave (enableDebugForPlayer World.initial steve 7) (leaveEventOf steve) =
      enableDebugForPlayer World.initial steve 7 ∧
    clearRunCount
      (playerLeave (enableDebugForPlayer World.initial steve 7) (leaveEventOf steve)).effects
      = 0 := by
  decide

/-- For a player object with an id, the leave handler finds the session that
enable stored and cancels it. -/
theorem leave_cleans_id_keyed_session (w : World) (p : Player) (i : JSString) (h0 : Nat)
    (hid : p.id = some i)
    (hreg : mapGet w.activeDebugIntervals (playerKey p) = some h0) :
    playerLeave w (leaveEventOf p) =
      { activeDebugIntervals := mapDelete w.activeDebugIntervals (playerKey p)
        effects := w.effects ++ [Effect.clearRun h0] } := by
  have hkey : playerKey p = i := by simp [playerKey, hid]
  rw [hkey] at hreg
  simp [playerLeave, leaveEventOf, hid, stringOr, hkey, hreg]

/-! ## The session invariant -/

theorem liveTasks_snoc (es : List Effect) (e : Effect) :
    liveTasks (es ++ [e]) = schedulerStep (liveTasks es) e := by
  simp [liveTasks, List.foldl_append]

theorem mem_of_mapGet (m : List (JSString × Nat)) (key : JSString) (h : Nat)
    (hg : mapGet m key = some h) : (key, h) ∈ m := by
  induction m with
  | nil => simp [mapGet] at hg
  | cons e rest ih =>
    obtain ⟨k, v⟩ := e
    by_cases hk : k = key
    · simp [mapGet, hk] at hg
      simp [hk, hg]
    · simp [mapGet, hk] at hg
      simp [ih hg]

theorem mapGet_of_mem (m : List (JSString × Nat)) (key : JSString) (h : Nat)
    (hnd : (m.map Prod.fst).Nodup) (hm : (key, h) ∈ m) : mapGet m key = some h := by
  induction m with
  | nil => simp at hm
  | cons e rest ih =>
    obtain ⟨k, v⟩ := e
    simp only [List.map_cons, List.nodup_cons] at hnd
    by_cases hk : k = key
    · subst hk
      simp only [List.mem_cons, Prod.mk.injEq, true_and] at hm
      rcases hm with hm | hm
      · simp [mapGet, hm]
      · exact absurd (List.mem_map_of_mem Prod.fst hm) hnd.1
    · have hm2 : (key, h) ∈ rest := by
        simp only [List.mem_cons, Prod.mk.injEq] at hm
        rcases hm with hm | hm
        · exact absurd hm.1.symm hk
        · exact hm
      simp [mapGet, hk, ih hnd.2 hm2]

theorem inv_feedback (w : World) (p : Player) (text : String) (hi : SessionInv w) :
    SessionInv ⟨w.activeDebugIntervals, w.effects ++ [Effect.setActionBar p text]⟩ := by
  obtain ⟨h1, h2, h3⟩ := hi
  exact ⟨by simp [liveTasks_snoc, schedulerStep, h1], h2, h3⟩

theorem inv_start (w : World) (p : Player) (h : Nat) (hi : SessionInv w)
    (hno : mapGet w.activeDebugIntervals (playerKey p) = none)
    (hfresh : ∀ t ∈ liveTasks w.effects, t.1 ≠ h) :
    SessionInv ⟨w.activeDebugIntervals ++ [(playerKey p, h)],
      w.effects ++ [Effect.runInterval p h]⟩ := by
  obtain ⟨h1, h2, h3⟩ := hi
  refine ⟨by simp [liveTasks_snoc, schedulerStep, h1], ?_, ?_⟩
  · rw [mapGet_eq_none_iff] at hno
    simp only [List.map_append, List.map_cons, List.map_nil]
    rw [List.nodup_append]
    refine ⟨h2, by simp, ?_⟩
    intro a ha hb
    simp only [List.mem_singleton] at hb
    obtain ⟨e, he, hea⟩ := List.mem_map.mp ha
    exact hno e he (hea.trans hb)
  · simp only [List.map_append, List.map_cons, List.map_nil]
    rw [List.nodup_append]
    refine ⟨h3, by simp, ?_⟩
    intro a ha hb
    simp only [List.mem_singleton] at hb
    obtain ⟨e, he, hea⟩ := List.mem_map.mp ha
    have hmem : e.swap ∈ liveTasks w.effects := by
      rw [h1]; exact List.mem_map_of_mem Prod.swap he
    exact hfresh _ hmem (by simpa using hea.trans hb)

theorem inv_stop (w : World) (key : JSString) (h : Nat) (hi : SessionInv w)
    (hreg : mapGet w.activeDebugIntervals key = some h) :
    SessionInv ⟨mapDelete w.activeDebugIntervals key, w.effects ++ [Effect.clearRun h]⟩ := by
  obtain ⟨h1, h2, h3⟩ := hi
  have hmem := mem_of_mapGet _ _ _ hreg
  have hsub : List.Sublist (mapDelete w.activeDebugIntervals key) w.activeDebugIntervals :=
    List.filter_sublist _
  refine ⟨?_, (hsub.map Prod.fst).nodup h2, (hsub.map Prod.snd).nodup h3⟩
  simp only [liveTasks_snoc, schedulerStep, h1, mapDelete, List.filter_map]
  congr 1
  apply List.filter_congr
  intro e he
  have hiff : e.2 = h ↔ e.1 = key := by
    constructor
    · intro hv
      have := List.inj_on_of_nodup_map h3 he hmem (by simpa using hv)
      simp [this]
    · intro hk
      have := List.inj_on_of_nodup_map h2 he hmem (by simpa using hk)
      simp [this]
  simp [hiff]

theorem inv_enable (w : World) (p : Player) (h : Nat) (hi : SessionInv w)
    (hfresh : ∀ t ∈ liveTasks w.effects, t.1 ≠ h) :
    SessionInv (enableDebugForPlayer w p h) := by
  by_cases hk : playerKey p = []
  · simpa [enableDebugForPlayer, hk] using hi
  · cases hreg : mapGet w.activeDebugIntervals (playerKey p) with
    | none =>
      rw [enable_started w p h hk hreg]
      have := inv_feedback _ p "Debug Menu Opened" (inv_start w p h hi hreg hfresh)
      simpa using this
    | some h0 =>
      rw [enable_already w p h h0 hk hreg]
      exact inv_feedback w p _ hi

theorem inv_disable (w : World) (p : Player) (hi : SessionInv w) :
    SessionInv (disableDebugForPlayer w p) := by
  by_cases hk : playerKey p = []
  · simpa [disableDebugForPlayer, hk] using hi
  · cases hreg : mapGet w.activeDebugIntervals (playerKey p) with
    | none =>
      rw [disable_not_active w p hk hreg]
      exact inv_feedback w p _ hi
    | some h0 =>
      rw [disable_stopped w p h0 hk hreg]
      have := inv_feedback _ p "Debug Menu Closed" (inv_stop w _ h0 hi hreg)
      simpa using this

theorem inv_leave (w : World) (ev : PlayerLeaveEvent) (hi : SessionInv w) :
    SessionInv (playerLeave w ev) := by
  cases hreg : mapGet w.activeDebugIntervals (stringOr ev.playerId) with
  | none => simpa [playerLeave, hreg] using hi
  | some h0 =>
    have := inv_stop w _ h0 hi hreg
    simpa [playerLeave, hreg] using this

theorem chatSend_cases (nfkc : JSString → JSString) (w : World) (ev : ChatSendEvent)
    (h : Nat) (r : World × Bool) (hr : chatSend nfkc w ev h = some r) :
    r.1 = enableDebugForPlayer w ev.sender h ∨ r.1 = disableDebugForPlayer w ev.sender ∨
      r.1 = w := by
  unfold chatSend at hr
  cases hon : messageContainsCommand nfkc ev.message (lit "?debug on") with
  | none => simp [hon] at hr
  | some a =>
    cases a with
    | true => simp [hon] at hr; simp [← hr]
    | false =>
      cases hoff : messageContainsCommand nfkc ev.message (lit "?debug off") with
      | none => simp [hon, hoff] at hr
      | some b =>
        cases b with
        | true => simp [hon, hoff] at hr; simp [← hr]
        | false => simp [hon, hoff] at hr; simp [← hr]

theorem inv_handleEvent (nfkc : JSString → JSString) (w : World) (e : Event)
    (hi : SessionInv w) (hf : FreshHandle w e) : SessionInv (handleEvent nfkc w e) := by
  cases e with
  | enable p h => exact inv_enable w p h hi (hf h rfl)
  | disable p => exact inv_disable w p hi
  | leave ev => exact inv_leave w ev hi
  | chat ev h =>
    simp only [handleEvent]
    cases hr : chatSend nfkc w ev h with
    | none => exact hi
    | some r =>
      rcases chatSend_cases nfkc w ev h r hr with h1 | h1 | h1
      · simp only [h1]; exact inv_enable w _ h hi (hf h rfl)
      · simp only [h1]; exact inv_disable w _ hi
      · simp only [h1]; exact hi

theorem inv_of_reachable (nfkc : JSString → JSString) (w : World)
    (hr : Reachable nfkc w) : SessionInv w := by
  induction hr with
  | initial => simp [SessionInv, World.initial, liveTasks]
  | step w e _ hf ih => exact inv_handleEvent nfkc w e ih hf

theorem tasks_per_key_le_one (m : List (JSString × Nat)) (key : JSString)
    (hnd : (m.map Prod.fst).Nodup) :
    ((m.map Prod.swap).filter (fun t => t.2 = key)).length ≤ 1 := by
  induction m with
  | nil => simp
  | cons e rest ih =>
    obtain ⟨k, v⟩ := e
    simp only [List.map_cons, List.nodup_cons] at hnd
    by_cases hk : k = key
    · subst hk
      have hnone : (rest.map Prod.swap).filter (fun t => t.2 = k) = [] := by
        rw [List.filter_eq_nil_iff]
        intro t ht
        obtain ⟨e, he, het⟩ := List.mem_map.mp ht
        have hne : e.1 ≠ k := fun h => hnd.1 (h ▸ List.mem_map_of_mem Prod.fst he)
        simpa [← het] using hne
      simp [List.filter_cons, hnone]
    · simpa [List.filter_cons, hk] using ih hnd.2

/-- C5: in every state reachable from the empty map through enable commands,
disable commands, leave events and chat events, with the host handing out
handles that no running task has, each identity has at most one interval task
started and not yet cancelled, and the map holds `key ↦ handle` exactly when
the task with that handle is running for that identity. -/
theorem reachable_one_task_per_identity (nfkc : JSString → JSString) (w : World)
    (hr : Reachable nfkc w) :
    (∀ key, ((liveTasks w.effects).filter (fun t => t.2 = key)).length ≤ 1) ∧
    (∀ key handle, mapGet w.activeDebugIntervals key = some handle ↔
      (handle, key) ∈ liveTasks w.effects) := by
  obtain ⟨h1, h2, _⟩ := inv_of_reachable nfkc w hr
  refine ⟨fun key => by rw [h1]; exact tasks_per_key_le_one _ key h2, ?_⟩
  intro key handle
  rw [h1]
  constructor
  · intro hg
    exact List.mem_map.mpr ⟨(key, handle), mem_of_mapGet _ _ _ hg, rfl⟩
  · intro hm
    obtain ⟨e, he, hes⟩ := List.mem_map.mp hm
    obtain ⟨k, v⟩ := e
    simp only [Prod.swap_prod_mk, Prod.mk.injEq] at hes
    obtain ⟨rfl, rfl⟩ := hes
    exact mapGet_of_mem _ _ _ h2 he

theorem reachable_one_task_per_identity_witness :
    Reachable id (handleEvent id World.initial (Event.enable alex 7)) ∧
    (mapGet (handleEvent id World.initial (Event.enable alex 7)).activeDebugIntervals
        (playerKey alex) = some 7 ↔
      (7, playerKey alex) ∈
        liveTasks (handleEvent id World.initial (Event.enable alex 7)).effects) :=
  have hr : Reachable id (handleEvent id World.initial (Event.enable alex 7)) :=
    Reachable.step World.initial (Event.enable alex 7) Reachable.initial
      (fun _ _ t ht => by simp [World.initial, liveTasks] at ht)
  ⟨hr, (reachable_one_task_per_identity id _ hr).2 (playerKey alex) 7⟩

/-! ## Codec lemmas -/

theorem includes_iff (s t : JSString) : includes s t = true ↔ t <:+: s := by
  simp only [includes, List.any_eq_true, List.mem_tails, List.isPrefixOf_iff_prefix]
  rw [List.infix_iff_prefix_suffix]
  constructor
  · rintro ⟨u, hu, ht⟩; exact ⟨u, ht, hu⟩
  · rintro ⟨u, ht, hu⟩; exact ⟨u, hu, ht⟩

theorem unitsOf_codePoints (s : JSString) (hs : IsString s) : unitsOf (codePoints s) = s := by
  induction s using codePoints.induct with
  | case1 => rfl
  | case2 u =>
    have hu : u < 65536 := hs u (by simp)
    simp only [codePoints, unitsOf, utf16]
    rw [if_pos (by omega)]; rfl
  | case3 u v rest hc ih =>
    have hrest : IsString rest := fun x hx => hs x (by simp [hx])
    simp only [Bool.and_eq_true, isHighSurrogate, isLowSurrogate, decide_eq_true_eq] at hc
    obtain ⟨⟨hu1, hu2⟩, hv1, hv2⟩ := hc
    rw [codePoints, if_pos (by simp [isHighSurrogate, isLowSurrogate, hu1, hu2, hv1, hv2])]
    simp only [unitsOf, utf16, ih hrest]
    rw [if_neg (by omega)]
    have e1 : ((u - 0xD800) * 0x400 + (v - 0xDC00) + 0x10000 - 0x10000) / 0x400 + 0xD800 = u := by
      omega
    have e2 : ((u - 0xD800) * 0x400 + (v - 0xDC00) + 0x10000 - 0x10000) % 0x400 + 0xDC00 = v := by
      omega
    rw [e1, e2]; rfl
  | case4 u v rest hc ih =>
    have hrest : IsString (v :: rest) := fun x hx => hs x (List.mem_cons_of_mem _ hx)
    have hu : u < 65536 := hs u (by simp)
    rw [codePoints, if_neg hc]
    simp only [unitsOf, utf16, ih hrest]
    rw [if_pos (by omega)]; rfl

theorem codePoints_le (s : JSString) (hs : IsString s) :
    ∀ c ∈ codePoints s, c ≤ 0x10FFFF := by
  induction s using codePoints.induct with
  | case1 => simp [codePoints]
  | case2 u =>
    have hu : u < 65536 := hs u (by simp)
    intro c hc
    simp only [codePoints, List.mem_singleton] at hc
    omega
  | case3 u v rest hc ih =>
    have hrest : IsString rest := fun x hx => hs x (by simp [hx])
    simp only [Bool.and_eq_true, isHighSurrogate, isLowSurrogate, decide_eq_true_eq] at hc
    obtain ⟨⟨hu1, hu2⟩, hv1, hv2⟩ := hc
    rw [codePoints, if_pos (by simp [isHighSurrogate, isLowSurrogate, hu1, hu2, hv1, hv2])]
    intro c hc
    simp only [List.mem_cons] at hc
    rcases hc with hc | hc
    · omega
    · exact ih hrest c hc
  | case4 u v rest hc ih =>
    have hrest : IsString (v :: rest) := fun x hx => hs x (List.mem_cons_of_mem _ hx)
    have hu : u < 65536 := hs u (by simp)
    rw [codePoints, if_neg hc]
    intro c hc
    simp only [List.mem_cons] at hc
    rcases hc with hc | hc
    · omega
    · exact ih hrest c (by simpa using hc)

theorem codePoints_utf16_append (c : Nat) (t : JSString) (hc : IsScalarValue (c : Int)) :
    codePoints (utf16 c ++ t) = c :: codePoints t := by
  obtain ⟨_, h2, h3⟩ := hc
  by_cases hb : c ≤ 0xFFFF
  · simp only [utf16, if_pos hb, List.singleton_append]
    cases t with
    | nil => simp [codePoints]
    | cons v rest =>
      have hnh : isHighSurrogate c = false := by
        simp only [isHighSurrogate, Bool.and_eq_false_iff, decide_eq_false_iff_not]
        omega
      rw [codePoints, if_neg (by simp [hnh])]
  · simp only [utf16, if_neg hb, List.cons_append, List.nil_append]
    have hh : isHighSurrogate ((c - 0x10000) / 0x400 + 0xD800) = true := by
      simp only [isHighSurrogate, Bool.and_eq_true, decide_eq_true_eq]
      omega
    have hl : isLowSurrogate ((c - 0x10000) % 0x400 + 0xDC00) = true := by
      simp only [isLowSurrogate, Bool.and_eq_true, decide_eq_true_eq]
      omega
    rw [codePoints, if_pos (by simp [hh, hl])]
    simp only [List.cons.injEq, and_true]
    omega

theorem codePoints_unitsOf (l : List Nat) (hl : ∀ c ∈ l, IsScalarValue (c : Int)) :
    codePoints (unitsOf l) = l := by
  induction l with
  | nil => rfl
  | cons c rest ih =>
    rw [unitsOf, codePoints_utf16_append c _ (hl c (by simp)),
      ih (fun x hx => hl x (List.mem_cons_of_mem _ hx))]

theorem offsetLoop_eq (d : Int) (l : List Nat)
    (hl : ∀ c ∈ l, c ≠ 0x20 → 0 ≤ (c : Int) + d ∧ (c : Int) + d ≤ 0x10FFFF) :
    offsetLoop d l = some (unitsOf (l.map (shiftCp d))) := by
  induction l with
  | nil => rfl
  | cons c rest ih =>
    have ih2 := ih (fun x hx => hl x (List.mem_cons_of_mem _ hx))
    by_cases hc : c = 0x20
    · simp [offsetLoop, hc, ih2, unitsOf, shiftCp, utf16]
    · obtain ⟨h1, h2⟩ := hl c (by simp) hc
      have hfc : fromCodePoint ((c : Int) + d) = some (utf16 ((c : Int) + d).toNat) := by
        rw [fromCodePoint, if_neg (by omega)]
      simp [offsetLoop, hc, ih2, unitsOf, shiftCp, hfc]

theorem offsetString_zero (c : JSString) (hc : IsString c) :
    offsetString (some c) 0 = some c := by
  have hle := codePoints_le c hc
  have hmap : (codePoints c).map (shiftCp 0) = codePoints c := by
    conv_rhs => rw [← List.map_id (codePoints c)]
    apply List.map_congr_left
    intro x _
    simp only [shiftCp, id]
    split <;> simp_all
  rw [offsetString, stringOr, offsetLoop_eq 0 _ (fun x hx _ => by have := hle x hx; omega),
    hmap, unitsOf_codePoints c hc]

/-! ## Codec theorems -/

/-- C1: `messageContainsCommand(m, c)` returns true exactly when the
NFKC-normalized message (`null` taken as the empty string) contains `c`, or
contains the string `offsetString(c, 10240)`; whenever that encoding exists
the call returns the disjunction of the two `includes` tests. With
c = "?debug on", the messages "?debug on" and `offsetString("?debug on", 10240)`
are detected and "hello" is not. -/
theorem messageContainsCommand_spec (nfkc : JSString → JSString)
    (hn : NFKCFixesAsciiBraille nfkc) :
    (∀ (m : Option JSString) (c : JSString), IsString c →
      (messageContainsCommand nfkc m c = some true ↔
        (c <:+: nfkc (stringOr m) ∨
          ∃ e, offsetString (some c) 10240 = some e ∧ e <:+: nfkc (stringOr m)))) ∧
    (∀ (m : Option JSString) (c e : JSString), IsString c →
      offsetString (some c) 10240 = some e →
      messageContainsCommand nfkc m c =
        some (includes (nfkc (stringOr m)) c || includes (nfkc (stringOr m)) e)) ∧
    messageContainsCommand nfkc (some (lit "?debug on")) (lit "?debug on") = some true ∧
    (∃ e, offsetString (some (lit "?debug on")) 10240 = some e ∧
      messageContainsCommand nfkc (some e) (lit "?debug on") = some true) ∧
    messageContainsCommand nfkc (some (lit "hello")) (lit "?debug on") = some false := by
  refine ⟨?_, ?_, ?_, ?_, ?_⟩
  · intro m c hc
    simp only [messageContainsCommand, offsetString_zero c hc, Option.some_bind, BRAILLE_OFFSET]
    cases hinc : includes (nfkc (stringOr m)) c with
    | true =>
      have := (includes_iff _ _).mp hinc
      simp [this]
    | false =>
      have hnot : ¬ c <:+: nfkc (stringOr m) := by
        rw [← includes_iff]; simp [hinc]
      cases henc : offsetString (some c) 10240 with
      | none => simp [hnot]
      | some e => simp [hnot, includes_iff]
  · intro m c e hc he
    simp only [messageContainsCommand, offsetString_zero c hc, Option.some_bind, BRAILLE_OFFSET,
      he, Option.map_some']
    cases includes (nfkc (stringOr m)) c <;> simp
  · have hfix : nfkc (lit "?debug on") = lit "?debug on" := hn _ (by decide)
    simp only [messageContainsCommand, stringOr, hfix]; decide
  · refine ⟨[10303, 10340, 10341, 10338, 10357, 10343, 32, 10351, 10350], by decide, ?_⟩
    have hfix : nfkc [10303, 10340, 10341, 10338, 10357, 10343, 32, 10351, 10350] =
        [10303, 10340, 10341, 10338, 10357, 10343, 32, 10351, 10350] := hn _ (by decide)
    simp only [messageContainsCommand, stringOr, hfix]; decide
  · have hfix : nfkc (lit "hello") = lit "hello" := hn _ (by decide)
    simp only [messageContainsCommand, stringOr, hfix]; decide

theorem messageContainsCommand_spec_witness :
    NFKCFixesAsciiBraille id ∧
    messageContainsCommand id (some (lit "?debug on")) (lit "?debug on") = some true ∧
    messageContainsCommand id (some (lit "hello")) (lit "?debug on") = some false :=
  ⟨fun _ _ => rfl, (messageContainsCommand_spec id (fun _ _ => rfl)).2.2.1,
    (messageContainsCommand_spec id (fun _ _ => rfl)).2.2.2.2⟩

/-- C2, as stated, fails: "!" shifted by -1 is a space, which the inverse
offset leaves in place. -/
theorem roundTrip_fails_on_space_image :
    ¬ ∀ (s : JSString) (d : Int), IsString s →
      (∀ c ∈ codePoints s, c ≠ 0x20 ∧ IsScalarValue ((c : Int) + d)) →
      roundTrip s d = some s := by
  intro h
  have h1 := h [0x21] (-1) (by decide) (by decide)
  revert h1
  decide

/-- C2, amended: for a string with no space whose code points, shifted by `d`,
are Unicode scalar values other than the space U+0020, the inverse offset
undoes the encoding. -/
theorem offsetString_roundTrip (s : JSString) (d : Int) (hs : IsString s)
    (h : ∀ c ∈ codePoints s,
      c ≠ 0x20 ∧ IsScalarValue ((c : Int) + d) ∧ (c : Int) + d ≠ 0x20) :
    roundTrip s d = some s := by
  have hle := codePoints_le s hs
  have henc : offsetString (some s) d = some (unitsOf ((codePoints s).map (shiftCp d))) := by
    rw [offsetString, stringOr]
    apply offsetLoop_eq
    intro c hc _
    obtain ⟨_, ⟨h1, h2, _⟩, _⟩ := h c hc
    exact ⟨h1, h2⟩
  have hcp : codePoints (unitsOf ((codePoints s).map (shiftCp d))) =
      (codePoints s).map (shiftCp d) := by
    apply codePoints_unitsOf
    intro c' hc'
    obtain ⟨c, hc, rfl⟩ := List.mem_map.mp hc'
    obtain ⟨hne, ⟨h1, h2, h3⟩, _⟩ := h c hc
    simp only [shiftCp, if_neg hne]
    rw [Int.toNat_of_nonneg h1]
    exact ⟨h1, h2, h3⟩
  have hback : ((codePoints s).map (shiftCp d)).map (shiftCp (-d)) = codePoints s := by
    rw [List.map_map]
    conv_rhs => rw [← List.map_id (codePoints s)]
    apply List.map_congr_left
    intro c hc
    obtain ⟨hne, ⟨h1, _, _⟩, h4⟩ := h c hc
    simp only [Function.comp, shiftCp, if_neg hne, id]
    rw [if_neg (by omega)]
    omega
  simp only [roundTrip, henc, Option.some_bind]
  rw [offsetString, stringOr, hcp, offsetLoop_eq, hback, unitsOf_codePoints s hs]
  intro c' hc' _
  obtain ⟨c, hc, rfl⟩ := List.mem_map.mp hc'
  obtain ⟨hne, ⟨h1, _, _⟩, _⟩ := h c hc
  have := hle c hc
  simp only [shiftCp, if_neg hne]
  omega

theorem offsetString_roundTrip_witness :
    roundTrip (lit "?debug") 10240 = some (lit "?debug") :=
  offsetString_roundTrip (lit "?debug") 10240 (by decide) (by decide)

/-! ## Overlay arithmetic theorems -/

/-- C9: at tick 0 the guard `!safeTime` returns `undefined`, and at tick
18000 the result is "24:00", an hour outside 00..23. -/
theorem translateTimeOfDay_at_0_and_18000 :
    translateTimeOfDay 0 = none ∧ translateTimeOfDay 18000 = some "24:00" := by
  refine ⟨by decide, ?_⟩
  simp [translateTimeOfDay]
  norm_num
  decide

/-- In exact arithmetic, every tick in 1 .. 24000 other than 18000 yields an
hour in 0 .. 23 and a minute in 0 .. 59. -/
theorem translateTimeOfDay_in_range (t : Int) (h0 : 0 < t) (h1 : t ≤ 24000)
    (h2 : t ≠ 18000) :
    ∃ hour minute : Int, 0 ≤ hour ∧ hour ≤ 23 ∧ 0 ≤ minute ∧ minute ≤ 59 ∧
      translateTimeOfDay t = some (padStart2 hour ++ ":" ++ padStart2 minute) := by
  have hq0 : (0 : ℚ) < (t : ℚ) := by exact_mod_cast h0
  have hq1 : (t : ℚ) ≤ 24000 := by exact_mod_cast h1
  have hq2 : (t : ℚ) ≠ 18000 := by exact_mod_cast h2
  have hx : ∃ x : ℚ, 0 ≤ x ∧ x < 24 ∧
      (if 6 + ((t : ℚ) / 24000) * 24 > 24 then 6 + ((t : ℚ) / 24000) * 24 - 24
        else 6 + ((t : ℚ) / 24000) * 24) = x := by
    by_cases hgt : 6 + ((t : ℚ) / 24000) * 24 > 24
    · exact ⟨_, by linarith, by linarith, if_pos hgt⟩
    · refine ⟨_, by linarith, ?_, if_neg hgt⟩
      rcases lt_or_eq_of_le (not_lt.mp hgt) with hlt | heq
      · exact hlt
      · exact absurd (by linarith) hq2
  obtain ⟨x, hx0, hx24, hxe⟩ := hx
  refine ⟨Int.floor x, Int.floor ((x - Int.floor x) * 60), Int.floor_nonneg.mpr hx0, ?_,
    Int.floor_nonneg.mpr ?_, ?_, ?_⟩
  · have : Int.floor x < 24 := Int.floor_lt.mpr (by exact_mod_cast hx24)
    omega
  · have := Int.floor_le x
    nlinarith
  · have : Int.floor ((x - Int.floor x) * 60) < 60 := by
      apply Int.floor_lt.mpr
      have := Int.lt_floor_add_one x
      push_cast
      linarith
    omega
  · simp only [translateTimeOfDay]
    rw [if_neg (by omega), hxe]

theorem playerChunk_eq_ediv (b : Int) : playerChunk b = b / 16 := by
  have h := Rat.floor_intCast_div_natCast b 16
  simpa [playerChunk] using h

/-- For a block coordinate that is not negative, chunk index and in-chunk
position do locate the block. -/
theorem chunk_position_nonneg_block (b : Int) (hb : 0 ≤ b) :
    0 ≤ playerChunkPosition b ∧ playerChunkPosition b ≤ 15 ∧
    b = 16 * playerChunk b + playerChunkPosition b := by
  rw [playerChunk_eq_ediv, playerChunkPosition, Int.tmod_eq_emod hb (by decide)]
  omega

/-- C10: for the block coordinate -1 the chunk index is -1 and the in-chunk
position is -1, which is negative and does not satisfy b = 16 * c + r. -/
theorem chunk_position_negative_block :
    playerChunk (-1) = -1 ∧ playerChunkPosition (-1) = -1 ∧
    16 * playerChunk (-1) + playerChunkPosition (-1) = -17 := by
  have hc : playerChunk (-1) = -1 := by
    simp [playerChunk, Int.floor_eq_iff]; norm_num
  refine ⟨hc, by decide, ?_⟩
  rw [hc]; decide

end DebugScreen
